import Mathlib

/-!
Verification of the BFD PDB/MSF archive back-end (`bfd/pdb.c`).

The development shallowly embeds the reader (`pdb_archive_p`,
`pdb_get_elt_at_index`, `pdb_openr_next_archived_file`) and the writer
(`pdb_allocate_block`, `pdb_write_directory`, `pdb_write_bitmap`,
`pdb_write_contents`) over a byte-addressed file model, and proves the
testable properties of the specification against that embedding.

Machine integers are modelled as `Nat` with explicit reduction modulo
`2^32` (`m32`) at the places where the C code performs `uint32_t`
arithmetic that can wrap.  Bytes are `Nat` values stored modulo 256
(C `char` semantics).
-/

/-- Reduction modulo `2^32`, the semantics of C `uint32_t` assignment and
arithmetic. -/
def m32 (n : Nat) : Nat := n % 4294967296

/-- A seekable byte store: `data` gives the byte at each offset, `size` is
the current length of the file (reads past `size` come up short, writes
extend it, as with a POSIX file). -/
structure MsfFile where
  data : Nat → Nat
  size : Nat

/-- Reading one byte from the store (C `char` access: value modulo 256). -/
def readByte (f : MsfFile) (p : Nat) : Nat := f.data p % 256

/-- `bfd_getl32`: little-endian 32-bit read of four bytes at offset `p`. -/
def getl32 (d : Nat → Nat) (p : Nat) : Nat :=
  d p % 256 + 256 * (d (p + 1) % 256) + 65536 * (d (p + 2) % 256) +
    16777216 * (d (p + 3) % 256)

/-- `bfd_putl32`: the four little-endian bytes of a 32-bit value. -/
def putl32 (v : Nat) : List Nat :=
  [v % 256, v / 256 % 256, v / 65536 % 256, v / 16777216 % 256]

/-- Overwrite the bytes `p`, `p+1`, ... with the entries of `bs`
(stored modulo 256, as C `char`s). -/
def writeBytes (d : Nat → Nat) (p : Nat) (bs : List Nat) : Nat → Nat :=
  fun a => if p ≤ a ∧ a < p + bs.length then bs.getD (a - p) 0 % 256 else d a

/-- `bfd_bwrite` of a byte buffer at an absolute position: updates the
data and extends the file size. -/
def bwrite (f : MsfFile) (p : Nat) (bs : List Nat) : MsfFile :=
  ⟨writeBytes f.data p bs, max f.size (p + bs.length)⟩

/-- `bfd_bread` of four bytes plus `bfd_getl32`, together with the
`ret != sizeof (uint32_t)` short-read check: `none` models the short read. -/
def bread4 (f : MsfFile) (p : Nat) : Option Nat :=
  if p + 4 ≤ f.size then some (getl32 f.data p) else none

/-- The bytes delivered by a full `bfd_bread` of `n` bytes at offset `p`
(the caller separately checks `p + n ≤ f.size` for the short-read test). -/
def breadList (f : MsfFile) (p n : Nat) : List Nat :=
  (List.range n).map (fun k => readByte f (p + k))

/-- The 32-byte MSF magic, `"Microsoft C/C++ MSF 7.00\r\n\x1a\x44\x53\0\0\0"`. -/
def pdbMagic : List Nat :=
  [0x4d, 0x69, 0x63, 0x72, 0x6f, 0x73, 0x6f, 0x66,
   0x74, 0x20, 0x43, 0x2f, 0x43, 0x2b, 0x2b, 0x20,
   0x4d, 0x53, 0x46, 0x20, 0x37, 0x2e, 0x30, 0x30,
   0x0d, 0x0a, 0x1a, 0x44, 0x53, 0x00, 0x00, 0x00]

/-- The error codes the back-end reports through `bfd_set_error`. -/
inductive PdbErr where
  | wrongFormat
  | malformed
  | noMoreFiles
  | invalidOperation
deriving DecidableEq, Repr

/-- `pdb_archive_p`: read 32 bytes (short read is `wrong_format`), compare
with the magic (`memcmp` mismatch is `wrong_format`), otherwise accept. -/
def pdb_archive_p (abfd : MsfFile) : Except PdbErr Unit :=
  if min 32 abfd.size ≠ 32 then .error .wrongFormat
  else if breadList abfd 0 32 ≠ pdbMagic then .error .wrongFormat
  else .ok ()

/-- The stream object produced by `pdb_get_elt_at_index`: the BFD name
(`sprintf ("%04lx", sym_index)`), the `parsed_size` and `key` fields of its
`areltdata`, and the payload bytes copied into it. -/
structure PdbElt where
  name : List Char
  parsed_size : Nat
  key : Nat
  payload : List Nat
deriving DecidableEq, Repr

/-- `sprintf ("%04lx", i)`: lowercase hexadecimal, zero-padded to at least
four digits. -/
def hexName (i : Nat) : List Char :=
  List.replicate (4 - (Nat.toDigits 16 i).length) '0' ++ Nat.toDigits 16 i

/-- Lines 87-89 of `pdb.c`: the `block_size` rejection test
`(block_size & -block_size) != block_size || block_size < 512 ||
block_size > 4096` (`-block_size` is two's-complement negation on
`uint32_t`). `true` means the value is rejected. -/
def checkBadBlockSize (block_size : Nat) : Bool :=
  ((block_size &&& m32 (4294967296 - block_size)) != block_size) ||
    block_size < 512 || block_size > 4096

/-- Lines 211-265 of `pdb.c`: the loop summing the block counts of the
streams preceding `sym_index`.  Arguments after the file and the two header
fields: remaining iteration count, `dir_offset`, the current read position
(the loop reads the size entries sequentially, reseeking only at directory
block boundaries), and the accumulated `block_off`.  All `uint32_t`
arithmetic wraps via `m32`. -/
def pdb_sum_sizes (abfd : MsfFile) (block_size block_map_addr : Nat) :
    Nat → Nat → Nat → Nat → Except PdbErr Nat
  | 0, _, _, block_off => .ok block_off
  | k + 1, dir_offset, pos, block_off =>
    match (if dir_offset % block_size == 0 then
        match bread4 abfd
            (m32 (block_map_addr * block_size + dir_offset / block_size * 4)) with
        | none => Except.error PdbErr.malformed
        | some block => Except.ok (m32 (block * block_size))
      else Except.ok pos) with
    | .error e => .error e
    | .ok pos =>
      match bread4 abfd pos with
      | none => .error .malformed
      | some size =>
        let size := if size == 4294967295 then 0 else size
        let num_blocks := m32 (size + block_size - 1) / block_size
        pdb_sum_sizes abfd block_size block_map_addr k
          (m32 (dir_offset + 4)) (pos + 4) (m32 (block_off + num_blocks))

/-- Lines 298-358 of `pdb.c`: the do-while loop copying the stream's data
blocks into the new BFD.  Arguments after the header fields and
`file_size`: a fuel bound on the iteration count (the loop runs
`ceil (file_size / block_size) ≤ file_size` times, since `block_size ≥ 512`
has been validated; the fuel-exhaustion branch is unreachable and reported
as `malformed`), then `dir_offset`, the current directory `block`, `left`,
and the bytes accumulated in the output BFD. -/
def pdb_read_blocks (abfd : MsfFile) (block_size block_map_addr file_size : Nat) :
    Nat → Nat → Nat → Nat → List Nat → Except PdbErr (List Nat)
  | 0, _, _, _, _ => .error .malformed
  | fuel + 1, dir_offset, block, left, acc =>
    match (if dir_offset % block_size == 0 && left != file_size then
        match bread4 abfd
            (m32 (block_map_addr * block_size + dir_offset / block_size * 4)) with
        | none => Except.error PdbErr.malformed
        | some b => Except.ok b
      else Except.ok block) with
    | .error e => .error e
    | .ok block =>
      match bread4 abfd (m32 (block * block_size + dir_offset % block_size)) with
      | none => .error .malformed
      | some file_block =>
        let to_read := if left > block_size then block_size else left
        if m32 (file_block * block_size) + to_read ≤ abfd.size then
          let acc := acc ++ breadList abfd (m32 (file_block * block_size)) to_read
          if left > block_size then
            pdb_read_blocks abfd block_size block_map_addr file_size fuel
              (m32 (dir_offset + 4)) block (left - block_size) acc
          else .ok acc
        else .error .malformed

/-- `pdb_get_elt_at_index` (lines 65-370 of `pdb.c`).  Reads `block_size`
at offset 32, validates it, skips four header fields to read
`block_map_addr` at offset 52, follows the block map to the first directory
block, reads `num_files`, reads and sentinel-maps the stream's size entry,
returns an empty stream for size 0, and otherwise sums the preceding
streams' block counts and copies the stream's blocks.  Seek targets are
computed with `uint32_t` wrap-around exactly as in the source. -/
def pdb_get_elt_at_index (abfd : MsfFile) (sym_index : Nat) : Except PdbErr PdbElt :=
  match bread4 abfd 32 with
  | none => .error .malformed
  | some block_size =>
  if checkBadBlockSize block_size then .error .malformed else
  match bread4 abfd 52 with
  | none => .error .malformed
  | some block_map_addr =>
  match bread4 abfd (m32 (block_map_addr * block_size)) with
  | none => .error .malformed
  | some first_dir_block =>
  match bread4 abfd (m32 (first_dir_block * block_size)) with
  | none => .error .malformed
  | some num_files =>
  if sym_index ≥ num_files then .error .noMoreFiles else
  let dir_offset := m32 (4 * (sym_index + 1))
  match (if dir_offset ≥ block_size then
      bread4 abfd (m32 (block_map_addr * block_size + dir_offset / block_size * 4))
    else some first_dir_block) with
  | none => .error .malformed
  | some block =>
  match bread4 abfd (m32 (block * block_size + dir_offset % block_size)) with
  | none => .error .malformed
  | some fsz =>
  let file_size := if fsz == 4294967295 then 0 else fsz
  if file_size == 0 then .ok ⟨hexName sym_index, file_size, sym_index, []⟩ else
  match (if sym_index != 0 then
      pdb_sum_sizes abfd block_size block_map_addr sym_index 4
        (m32 (first_dir_block * block_size) + 4) 0
    else Except.ok 0) with
  | .error e => .error e
  | .ok block_off =>
  let dir_offset := m32 (4 * m32 (num_files + block_off + 1))
  match (if dir_offset ≥ block_size then
      bread4 abfd (m32 (block_map_addr * block_size + dir_offset / block_size * 4))
    else some first_dir_block) with
  | none => .error .malformed
  | some block =>
  match pdb_read_blocks abfd block_size block_map_addr file_size file_size
      dir_offset block file_size [] with
  | .error e => .error e
  | .ok payload => .ok ⟨hexName sym_index, file_size, sym_index, payload⟩

/-- `pdb_openr_next_archived_file` (lines 372-379 of `pdb.c`). -/
def pdb_openr_next_archived_file (archive : MsfFile) (last_file : Option PdbElt) :
    Except PdbErr PdbElt :=
  match last_file with
  | none => pdb_get_elt_at_index archive 0
  | some l => pdb_get_elt_at_index archive (l.key + 1)

/-- `pdb_allocate_block` (lines 393-411 of `pdb.c`): take the next block
from the monotone counter, and when the raw counter value sits at the
start of a new interval (`block % block_size == 1`) skip the two blocks
reserved for the free-space map.  Returns the allocated block and the new
counter.  Increments are `uint32_t` and wrap via `m32`. -/
def pdb_allocate_block (num_blocks block_size : Nat) : Nat × Nat :=
  let block := num_blocks
  let num_blocks := m32 (num_blocks + 1)
  if block % block_size == 1 then (m32 (block + 2), m32 (num_blocks + 2))
  else (block, num_blocks)

/-- The writer state threaded through `pdb_write_directory`: the file being
emitted, the `num_blocks` allocation counter, the current directory
`block`, the bytes `left` in it, and `block_map_off`.  The C code tracks
the intra-block write position through the file pointer; here it is
recovered as `block * block_size + (block_size - left)`, which is exactly
the seek target the source computes when it repositions (line 596). -/
structure WSt where
  f : MsfFile
  num_blocks : Nat
  block : Nat
  left : Nat
  block_map_off : Nat

/-- The directory-overflow prologue that `pdb_write_directory` runs before
writing a `uint32_t` when the current directory block is full (lines
456-480 and 514-550 of `pdb.c`, two verbatim copies): fail with
`invalid_operation` if the block map page is full, otherwise allocate a
fresh directory block, record it in the block map page, and restart
`left`. -/
def pdb_dir_overflow (block_size block_map_addr : Nat) (st : WSt) : Option WSt :=
  if st.left == 0 then
    if st.block_map_off == block_size then none
    else
      let (block, num_blocks) := pdb_allocate_block st.num_blocks block_size
      some { f := bwrite st.f (m32 (block_map_addr * block_size + st.block_map_off))
                    (putl32 block),
             num_blocks := num_blocks, block := block, left := block_size,
             block_map_off := st.block_map_off + 4 }
  else some st

/-- Writing one `uint32_t` into the directory at the current sequential
position and consuming four bytes of `left`. -/
def writeDirWord (block_size : Nat) (st : WSt) (v : Nat) : WSt :=
  { st with
    f := bwrite st.f (st.block * block_size + (block_size - st.left)) (putl32 v),
    left := st.left - 4 }

/-- The "Write file sizes" loop of `pdb_write_directory` (lines 453-490):
one size word per archive member, with the overflow prologue before each. -/
def pdb_write_sizes (block_size block_map_addr : Nat) :
    List (List Nat) → WSt → Option WSt
  | [], st => some st
  | arelt :: rest, st =>
    match pdb_dir_overflow block_size block_map_addr st with
    | none => none
    | some st =>
      pdb_write_sizes block_size block_map_addr rest
        (writeDirWord block_size st arelt.length)

/-- The inner `for (i = 0; i < req_blocks; i++)` loop of
`pdb_write_directory` (lines 510-601): for each required block of the
current member, run the overflow prologue, allocate a data block, record
its index in the directory, and copy the next `to_read` bytes of the
member (zero-padded to a whole block) into it.  `size` and `rest` mirror
the source's remaining-size counter and the member's read position. -/
def pdb_write_stream_blocks (block_size block_map_addr : Nat) :
    Nat → Nat → List Nat → WSt → Option WSt
  | 0, _, _, st => some st
  | k + 1, size, rest, st =>
    match pdb_dir_overflow block_size block_map_addr st with
    | none => none
    | some st =>
      let (file_block, num_blocks) := pdb_allocate_block st.num_blocks block_size
      let st := writeDirWord block_size { st with num_blocks := num_blocks } file_block
      let to_read := if size > block_size then block_size else size
      let buf := rest.take to_read ++ List.replicate (block_size - to_read) 0
      let st := { st with f := bwrite st.f (m32 (file_block * block_size)) buf }
      pdb_write_stream_blocks block_size block_map_addr k (size - to_read)
        (rest.drop to_read) st

/-- The "Write blocks" outer loop of `pdb_write_directory` (lines
498-604): for each member, `req_blocks = (size + block_size - 1) /
block_size` (truncated to `uint32_t`) iterations of the inner loop. -/
def pdb_write_streams (block_size block_map_addr : Nat) :
    List (List Nat) → WSt → Option WSt
  | [], st => some st
  | arelt :: rest, st =>
    match pdb_write_stream_blocks block_size block_map_addr
        (m32 ((arelt.length + block_size - 1) / block_size)) arelt.length arelt st with
    | none => none
    | some st => pdb_write_streams block_size block_map_addr rest st

/-- `pdb_write_directory` (lines 413-617 of `pdb.c`): allocate the first
directory block, record it at the start of the block map page, write
`num_files`, run the sizes loop and the blocks loop, and zero-fill the
tail of the last directory block.  Returns the written file and the final
allocation counter (the C code updates it through a pointer). -/
def pdb_write_directory (abfd : MsfFile) (block_size num_files block_map_addr : Nat)
    (num_blocks : Nat) (members : List (List Nat)) : Option (MsfFile × Nat) :=
  let (block, num_blocks) := pdb_allocate_block num_blocks block_size
  let f := bwrite abfd (m32 (block_map_addr * block_size)) (putl32 block)
  let st : WSt := { f := bwrite f (m32 (block * block_size)) (putl32 num_files),
                    num_blocks := num_blocks, block := block,
                    left := block_size - 4, block_map_off := 4 }
  match pdb_write_sizes block_size block_map_addr members st with
  | none => none
  | some st =>
  match pdb_write_streams block_size block_map_addr members st with
  | none => none
  | some st =>
    some (bwrite st.f (st.block * block_size + (block_size - st.left))
            (List.replicate st.left 0), st.num_blocks)

/-- One interval's free-map buffer (lines 642-659 of `pdb.c`), built by
mutating the scratch buffer from the previous interval: zero the first
`min (num_blocks / 8) block_size` bytes when at least 8 used blocks
remain, and when the tail of the used range falls in this interval write
the partial byte `(1 << (8 - num_blocks % 8)) - 1` and `0xff` from there
to the end of the block. -/
def pdb_bitmap_buf (block_size num_blocks : Nat) (buf : Nat → Nat) : Nat → Nat :=
  let buf := if 8 ≤ num_blocks then
      (fun p => if p < min (num_blocks / 8) block_size then 0 else buf p)
    else buf
  if num_blocks < block_size * 8 then
    let off := num_blocks / 8
    let buf2 := if num_blocks % 8 != 0 then
        (fun p => if p = off then (1 <<< (8 - num_blocks % 8)) - 1 else buf p)
      else buf
    let off := if num_blocks % 8 != 0 then off + 1 else off
    if off < block_size then
      fun p => if off ≤ p ∧ p < block_size then 255 else buf2 p
    else buf2
  else buf

/-- The interval loop of `pdb_write_bitmap` (lines 631-668): write one
free-map block at block index `i * block_size + 1` per interval,
decrementing the remaining used-bit count by `8 * block_size` and clamping
it at zero.  The scratch buffer persists across iterations, as in the
source. -/
def pdb_write_bitmap_loop (block_size : Nat) :
    Nat → Nat → Nat → (Nat → Nat) → MsfFile → MsfFile
  | 0, _, _, _, f => f
  | k + 1, i, num_blocks, buf, f =>
    let buf := pdb_bitmap_buf block_size num_blocks buf
    let num_blocks2 := if num_blocks < block_size * 8 then 0
      else num_blocks - block_size * 8
    let f := bwrite f (m32 ((i * block_size + 1) * block_size))
               ((List.range block_size).map buf)
    pdb_write_bitmap_loop block_size k (i + 1) num_blocks2 buf f

/-- `pdb_write_bitmap` (lines 619-673 of `pdb.c`).  `num_blocks--` is a
`uint32_t` decrement, hence the wrapped `m32 (num_blocks + 4294967295)`;
the scratch buffer starts as a fresh `malloc` allocation whose initial
contents are irrelevant because every byte is overwritten before the first
write (modelled as all zeros). -/
def pdb_write_bitmap (abfd : MsfFile) (block_size num_blocks : Nat) : MsfFile :=
  let num_intervals := m32 (num_blocks + block_size - 1) / block_size
  pdb_write_bitmap_loop block_size num_intervals 0
    (m32 (num_blocks + 4294967295)) (fun _ => 0) abfd

/-- The member-counting loop of `pdb_write_contents` (lines 699-712):
accumulates `num_files` and `num_directory_bytes` (four bytes for each
size entry plus four per required block), all in `uint32_t`. -/
def pdb_count_fold (block_size : Nat) : List (List Nat) → Nat × Nat → Nat × Nat
  | [], acc => acc
  | arelt :: rest, (num_files, ndb) =>
    let blocks_required := m32 ((arelt.length + block_size - 1) / block_size)
    let ndb := m32 (ndb + 4)
    let ndb := m32 (ndb + blocks_required * 4)
    pdb_count_fold block_size rest (m32 (num_files + 1), ndb)

/-- `pdb_write_contents` (lines 675-757 of `pdb.c`): emit the magic and
the fixed header fields with `block_size = 0x400`, allocate
`block_map_addr` starting from counter 3, write the directory and the
free-block map, and finally store the resulting `num_blocks` at offset
40.  Archive members are their payload byte lists. -/
def pdb_write_contents (abfd : MsfFile) (members : List (List Nat)) : Option MsfFile :=
  let block_size := 1024
  let f := bwrite abfd 0 pdbMagic
  let f := bwrite f 32 (putl32 block_size)
  let f := bwrite f 36 (putl32 1)
  let (num_files, num_directory_bytes) := pdb_count_fold block_size members (0, 4)
  let num_blocks := 3
  let f := bwrite f 44 (putl32 num_directory_bytes)
  let (block_map_addr, num_blocks) := pdb_allocate_block num_blocks block_size
  let f := bwrite f 52 (putl32 block_map_addr)
  match pdb_write_directory f block_size num_files block_map_addr num_blocks members with
  | none => none
  | some (f, num_blocks) =>
    let f := pdb_write_bitmap f block_size num_blocks
    some (bwrite f 40 (putl32 num_blocks))

/-! ### Layout simulation

Pure functions mirroring the allocation behaviour of
`pdb_write_directory`, used to characterise the writer.  `w` counts the
`uint32_t` directory words written so far (word 0 is `num_files`); with
`block_size = 1024` a directory block holds 256 words, a new directory
block is allocated exactly when a word index is a multiple of 256, and at
that moment `block_map_off = 4 * (w / 256)`, so the source's
`block_map_off == block_size` overflow test is `w / 256 == 256`. -/

/-- The allocation effect of the directory-overflow prologue before
writing word `w`: possibly one fresh directory block. -/
def simProl (w c : Nat) : Option (List Nat × Nat) :=
  if w % 256 == 0 then
    if w / 256 == 256 then none
    else some ([(pdb_allocate_block c 1024).1], (pdb_allocate_block c 1024).2)
  else some ([], c)

/-- Allocation effect of writing `k` data blocks of one member starting
at word `w`, counter `c`: (new directory blocks, data blocks, final word
count, final counter). -/
def simStream : Nat → Nat → Nat → Option (List Nat × List Nat × Nat × Nat)
  | 0, w, c => some ([], [], w, c)
  | k + 1, w, c =>
    match simProl w c with
    | none => none
    | some (ds, c1) =>
      match simStream k (w + 1) (pdb_allocate_block c1 1024).2 with
      | none => none
      | some (ds2, bs2, w3, c3) =>
        some (ds ++ ds2, (pdb_allocate_block c1 1024).1 :: bs2, w3, c3)

/-- Allocation effect of the sizes loop: `n` words, no data blocks. -/
def simSizes : Nat → Nat → Nat → Option (List Nat × Nat × Nat)
  | 0, w, c => some ([], w, c)
  | n + 1, w, c =>
    match simProl w c with
    | none => none
    | some (ds, c1) =>
      match simSizes n (w + 1) c1 with
      | none => none
      | some (ds2, w2, c2) => some (ds ++ ds2, w2, c2)

/-- Allocation effect of the blocks loop over all members (by size). -/
def simStreams : List Nat → Nat → Nat → Option (List Nat × List (List Nat) × Nat × Nat)
  | [], w, c => some ([], [], w, c)
  | s :: rest, w, c =>
    match simStream (m32 ((s + 1023) / 1024)) w c with
    | none => none
    | some (ds, bl, w1, c1) =>
      match simStreams rest w1 c1 with
      | none => none
      | some (ds2, bls, w2, c2) => some (ds ++ ds2, bl :: bls, w2, c2)

/-- The complete allocation layout of a written archive, from the member
sizes: the directory blocks, the per-member data block lists, the total
word count and the final `num_blocks`.  The counter starts at 3
(superblock plus the two bitmap slots); `block_map_addr` is the first
allocation (always 3) and the first directory block the second. -/
def msfLayout (sizes : List Nat) : Option (List Nat × List (List Nat) × Nat × Nat) :=
  match simSizes sizes.length 1 (pdb_allocate_block (pdb_allocate_block 3 1024).2 1024).2 with
  | none => none
  | some (ds1, w1, c1) =>
    match simStreams sizes w1 c1 with
    | none => none
    | some (ds2, bls, w2, c2) =>
      some ((pdb_allocate_block (pdb_allocate_block 3 1024).2 1024).1 :: (ds1 ++ ds2),
        bls, w2, c2)

/-- A concrete byte file built from a list (for witnesses). -/
def msfFromList (l : List Nat) : MsfFile := ⟨fun p => l.getD p 0, l.length⟩

/-- The `k`-th block index returned by iterating `pdb_allocate_block`
with `block_size = 1024` starting from counter `c`. -/
def allocNth (c : Nat) : Nat → Nat
  | 0 => (pdb_allocate_block c 1024).1
  | k + 1 => allocNth (pdb_allocate_block c 1024).2 k

/-- The directory size formula of the specification:
`4 + 4·n + 4·Σ ceil (size_i / block_size)` with `block_size = 1024`. -/
def dirBytesSpec (sizes : List Nat) : Nat :=
  4 + 4 * sizes.length + 4 * (sizes.map (fun s => (s + 1023) / 1024)).sum

/-- Well-formedness of a batch of allocated block indices: strictly
increasing, inside the counter interval `[c, c2)`, and never on a
free-map slot (`b % 1024 ∈ {1, 2}`). -/
def GoodBlocks (c c2 : Nat) (l : List Nat) : Prop :=
  List.Pairwise (· < ·) l ∧
    ∀ x ∈ l, c ≤ x ∧ x < c2 ∧ x % 1024 ≠ 1 ∧ x % 1024 ≠ 2

/-- The address of directory word `k` given the directory block list
(for `block_size = 1024`: 256 words per block). -/
def wordAddr (dbs : List Nat) (k : Nat) : Nat :=
  dbs.getD (k / 256) 0 * 1024 + 4 * (k % 256)

/-- The byte the free-map writer leaves at offset `p` of an interval
block when `nb` used bits remain: all-used bytes are 0, all-free bytes
are `0xff`, and the boundary byte keeps its top `nb % 8` bits used. -/
def bitmapByte (nb p : Nat) : Nat :=
  if 8 * (p + 1) ≤ nb then 0
  else if nb ≤ 8 * p then 255
  else (1 <<< (8 - nb % 8)) - 1

/-! ## Theorems -/

/-- Claim C10: a byte stream holding fewer than 32 bytes makes
`pdb_archive_p` fail with `wrong_format` (the same non-fatal error as a
magic mismatch), so a truncated file reads as "not this format". -/
theorem claim_C10_short_probe (f : MsfFile) (h : f.size < 32) :
    pdb_archive_p f = .error .wrongFormat := by
  unfold pdb_archive_p
  rw [if_pos]
  omega

/-- Witness for C10 at a concrete 10-byte file. -/
theorem claim_C10_witness :
    (MsfFile.mk (fun _ => 0) 10).size < 32 ∧
      pdb_archive_p (MsfFile.mk (fun _ => 0) 10) = .error .wrongFormat :=
  ⟨by decide, claim_C10_short_probe _ (by decide)⟩

/-- Claim C2: `pdb_archive_p` fails with `wrong_format` on every input
whose first 32 bytes differ from the MSF magic, and its result depends
only on the first 32 bytes of the input (it never reads a byte beyond
the first 32). -/
theorem claim_C2_magic_discrimination :
    (∀ f : MsfFile, 32 ≤ f.size → breadList f 0 32 ≠ pdbMagic →
        pdb_archive_p f = .error .wrongFormat) ∧
    (∀ f g : MsfFile, min 32 f.size = min 32 g.size →
        (∀ k, k < 32 → readByte f k = readByte g k) →
        pdb_archive_p f = pdb_archive_p g) := by
  constructor
  · intro f hsz hne
    unfold pdb_archive_p
    rw [if_neg (by omega), if_pos hne]
  · intro f g hmin hbytes
    have hread : breadList f 0 32 = breadList g 0 32 := by
      unfold breadList
      refine List.map_congr_left ?_
      intro k hk
      have : k < 32 := List.mem_range.mp hk
      simpa using hbytes k this
    unfold pdb_archive_p
    rw [hmin, hread]

/-- Witness for C2: a 32-byte all-zero file is rejected as
`wrong_format`, and the probe result agrees between two files that share
their first 32 bytes. -/
theorem claim_C2_witness :
    (32 ≤ (msfFromList (List.replicate 32 0)).size ∧
      breadList (msfFromList (List.replicate 32 0)) 0 32 ≠ pdbMagic ∧
      pdb_archive_p (msfFromList (List.replicate 32 0)) = .error .wrongFormat) ∧
    pdb_archive_p (MsfFile.mk (fun _ => 7) 32) =
      pdb_archive_p (MsfFile.mk (fun p => if p < 32 then 7 else 9) 50) := by
  refine ⟨⟨by decide, by decide, claim_C2_magic_discrimination.1 _ (by decide) (by decide)⟩, ?_⟩
  exact claim_C2_magic_discrimination.2 _ _ (by decide) (by intro k hk; simp [readByte, hk])

/-- The residue of an allocation counter modulo 1024 is never 2 after
any `pdb_allocate_block` call (and the writer starts it at 3). -/
theorem allocCounter_inv (c : Nat) :
    (pdb_allocate_block c 1024).2 % 1024 ≠ 2 := by
  unfold pdb_allocate_block m32
  by_cases hc : c % 1024 = 1
  · simp only [hc, beq_self_eq_true, if_pos]
    omega
  · have : (c % 1024 == 1) = false := by simpa using hc
    simp only [this, Bool.false_eq_true, if_neg, ite_false]
    omega

/-- A block returned by `pdb_allocate_block` from a counter whose residue
is not 2 never lands on a free-map slot (residue 1 or 2). -/
theorem allocBlock_stride (c : Nat) (h : c % 1024 ≠ 2) :
    ¬((pdb_allocate_block c 1024).1 % 1024 = 1 ∨
      (pdb_allocate_block c 1024).1 % 1024 = 2) := by
  unfold pdb_allocate_block m32
  by_cases hc : c % 1024 = 1
  · simp only [hc, beq_self_eq_true, if_pos]
    omega
  · have : (c % 1024 == 1) = false := by simpa using hc
    simp only [this, Bool.false_eq_true, if_neg, ite_false]
    omega

/-- Claim C5: starting from the writer's initial counter value 3 with
`block_size = 1024`, no block index ever returned by `pdb_allocate_block`
satisfies `b % 1024 ∈ {1, 2}`; those slots stay reserved for the
free-space map. -/
theorem claim_C5_allocator_stride (k : Nat) :
    ¬(allocNth 3 k % 1024 = 1 ∨ allocNth 3 k % 1024 = 2) := by
  have main : ∀ k c, c % 1024 ≠ 2 →
      ¬(allocNth c k % 1024 = 1 ∨ allocNth c k % 1024 = 2) := by
    intro k
    induction k with
    | zero => intro c hc; exact allocBlock_stride c hc
    | succ n ih =>
      intro c hc
      exact ih _ (allocCounter_inv c)
  exact main k 3 (by decide)

/-- Any value assembled by `bfd_getl32` fits in 32 bits. -/
theorem getl32_lt (d : Nat → Nat) (p : Nat) : getl32 d p < 4294967296 := by
  unfold getl32
  omega

/-- Two numbers summing to `2^s - 1` share no set bit. -/
theorem land_eq_zero_of_add_eq_pred_pow (s : Nat) :
    ∀ a b : Nat, a + b = 2 ^ s - 1 → a &&& b = 0 := by
  induction s with
  | zero =>
    intro a b h
    simp at h
    simp [h.1, h.2]
  | succ n ih =>
    intro a b h
    have hpow : 0 < 2 ^ n := Nat.pow_pos (by omega)
    have hx : a % 2 + b % 2 = 1 := by omega
    have hdiv : a / 2 + b / 2 = 2 ^ n - 1 := by omega
    have h0 : a / 2 &&& b / 2 = 0 := ih _ _ hdiv
    apply Nat.eq_of_testBit_eq
    intro i
    rw [Nat.testBit_land, Nat.zero_testBit]
    cases i with
    | zero =>
      rw [Nat.testBit_zero, Nat.testBit_zero]
      rcases Nat.eq_zero_or_pos (a % 2) with h1 | h1
      · simp [h1]
      · have h2 : b % 2 = 0 := by omega
        simp [h2]
    | succ j =>
      have ha : a.testBit (j + 1) = (a / 2).testBit j := by
        rw [Nat.testBit_div_two]
      have hb : b.testBit (j + 1) = (b / 2).testBit j := by
        rw [Nat.testBit_div_two]
      rw [ha, hb, ← Nat.testBit_land, h0, Nat.zero_testBit]

/-- Two odd numbers summing to a power of two overlap exactly in bit 0. -/
theorem land_eq_one_of_odd_add_eq_pow (t a b : Nat) (ha : a % 2 = 1)
    (hb : b % 2 = 1) (h : a + b = 2 ^ t) : a &&& b = 1 := by
  have ht : 1 ≤ t := by
    by_contra hc
    have ht0 : t = 0 := by omega
    subst ht0
    simp at h
    omega
  have h2t : 2 ^ t = 2 * 2 ^ (t - 1) := by
    have he : t - 1 + 1 = t := by omega
    conv_lhs => rw [← he]
    rw [pow_succ]
    exact Nat.mul_comm _ _
  have hdiv : a / 2 + b / 2 = 2 ^ (t - 1) - 1 := by
    have hpos : 0 < 2 ^ (t - 1) := Nat.pow_pos (by omega)
    omega
  have h0 : a / 2 &&& b / 2 = 0 := land_eq_zero_of_add_eq_pred_pow _ _ _ hdiv
  apply Nat.eq_of_testBit_eq
  intro i
  rw [Nat.testBit_land]
  cases i with
  | zero => simp [Nat.testBit_zero, ha, hb]
  | succ j =>
    have hta : a.testBit (j + 1) = (a / 2).testBit j := by rw [Nat.testBit_div_two]
    have htb : b.testBit (j + 1) = (b / 2).testBit j := by rw [Nat.testBit_div_two]
    rw [hta, htb, ← Nat.testBit_land, h0, Nat.zero_testBit]
    have h1 : Nat.testBit 1 (j + 1) = false := by
      rw [Nat.testBit_to_div_mod]
      have hd : (1 : Nat) / 2 ^ (j + 1) = 0 := by
        apply Nat.div_eq_of_lt
        have : 2 ^ 1 ≤ 2 ^ (j + 1) := Nat.pow_le_pow_right (by omega) (by omega)
        omega
      simp [hd]
    rw [h1]

/-- Bitwise and distributes over a common left shift. -/
theorem land_shiftLeft (a b j : Nat) :
    (a <<< j) &&& (b <<< j) = (a &&& b) <<< j := by
  apply Nat.eq_of_testBit_eq
  intro i
  rw [Nat.testBit_land, Nat.testBit_shiftLeft, Nat.testBit_shiftLeft,
    Nat.testBit_shiftLeft, Nat.testBit_land]
  cases Nat.decLe j i with
  | isTrue h => simp [h]
  | isFalse h => simp [h]

/-- The two's-complement trick of line 87 of `pdb.c`: a value equal to
its own and with its 32-bit negation is a power of two. -/
theorem pow_of_land_neg_self (bs : Nat) (h0 : 0 < bs) (hlt : bs < 4294967296)
    (h : bs &&& (4294967296 - bs) = bs) : ∃ k, bs = 2 ^ k := by
  obtain ⟨j, m, hm, rfl⟩ := Nat.exists_eq_two_pow_mul_odd (n := bs) (by omega)
  have hmpos : 0 < m := by
    rcases hm with ⟨c, hc⟩
    omega
  have h32 : (2 : Nat) ^ 32 = 4294967296 := by norm_num
  have hj : j < 32 := by
    by_contra hc
    have hA : 2 ^ 32 ≤ 2 ^ j := Nat.pow_le_pow_right (by omega) (by omega)
    have hB : 2 ^ j ≤ 2 ^ j * m := Nat.le_mul_of_pos_right _ hmpos
    omega
  have hsplit : (4294967296 : Nat) = 2 ^ j * 2 ^ (32 - j) := by
    rw [← pow_add, ← h32]
    congr 1
    omega
  have hmlt : m < 2 ^ (32 - j) := by
    by_contra hc
    push_neg at hc
    have h2 : 2 ^ j * 2 ^ (32 - j) ≤ 2 ^ j * m := Nat.mul_le_mul_left _ hc
    rw [← hsplit] at h2
    omega
  set m2 := 2 ^ (32 - j) - m with hm2def
  have hadd : m + m2 = 2 ^ (32 - j) := by
    rw [hm2def]
    omega
  have hmulsum : 2 ^ j * m + 2 ^ j * m2 = 4294967296 := by
    rw [← Nat.mul_add, hadd, ← hsplit]
  have hsub : 4294967296 - 2 ^ j * m = 2 ^ j * m2 := by omega
  have hmod : m % 2 = 1 := Nat.odd_iff.mp hm
  have hm2odd : m2 % 2 = 1 := by
    have hpow2 : (2 ^ (32 - j)) % 2 = 0 := by
      have hge : 1 ≤ 32 - j := by omega
      have he : 32 - j - 1 + 1 = 32 - j := by omega
      conv_lhs => rw [← he, pow_succ]
      simp [Nat.mul_mod]
    omega
  have hland : m &&& m2 = 1 := land_eq_one_of_odd_add_eq_pow _ _ _ hmod hm2odd hadd
  rw [hsub] at h
  have hshift : 2 ^ j * m = m <<< j := by rw [Nat.shiftLeft_eq]; ring
  have hshift2 : 2 ^ j * m2 = m2 <<< j := by rw [Nat.shiftLeft_eq]; ring
  rw [hshift, hshift2, land_shiftLeft, hland] at h
  rw [Nat.shiftLeft_eq, one_mul, Nat.shiftLeft_eq] at h
  have hp : 0 < 2 ^ j := Nat.pow_pos (by omega)
  have hm1 : m = 1 := by
    rcases m with _ | m1
    · omega
    rcases m1 with _ | k
    · rfl
    · exfalso
      have hexp : (k + 1 + 1) * 2 ^ j = k * 2 ^ j + 2 ^ j + 2 ^ j := by ring
      omega
  refine ⟨j, ?_⟩
  rw [hm1, Nat.mul_one]

/-- The source's rejection test accepts exactly the powers of two in
`[512, 4096]` (for any 32-bit value). -/
theorem checkBadBlockSize_false_iff (bs : Nat) (hlt : bs < 4294967296) :
    checkBadBlockSize bs = false ↔ ((∃ k, bs = 2 ^ k) ∧ 512 ≤ bs ∧ bs ≤ 4096) := by
  unfold checkBadBlockSize
  constructor
  · intro h
    simp only [Bool.or_eq_false_iff, bne_eq_false_iff_eq, decide_eq_false_iff_not,
      not_lt] at h
    obtain ⟨⟨h1, h2⟩, h3⟩ := h
    have hm : m32 (4294967296 - bs) = 4294967296 - bs := by
      unfold m32
      omega
    rw [hm] at h1
    exact ⟨pow_of_land_neg_self bs (by omega) hlt h1, h2, h3⟩
  · rintro ⟨⟨k, rfl⟩, hge, hle⟩
    have hk9 : 9 ≤ k := by
      by_contra hc
      have hb : 2 ^ k ≤ 2 ^ 8 := Nat.pow_le_pow_right (by omega) (by omega)
      norm_num at hb
      omega
    have hk12 : k ≤ 12 := by
      by_contra hc
      have hb : 2 ^ 13 ≤ 2 ^ k := Nat.pow_le_pow_right (by omega) (by omega)
      norm_num at hb
      omega
    interval_cases k <;> decide

/-- Claim C3: `pdb_get_elt_at_index` fails with `malformed` whenever the
`block_size` field it reads is not a power of two in `[512, 4096]`; in
particular 0, 256, 768, 1000 and 8192 are all rejected, and every power
of two in the range passes the check. -/
theorem claim_C3_block_size_validation :
    (∀ (f : MsfFile) (i bs : Nat), bread4 f 32 = some bs →
        ¬((∃ k, bs = 2 ^ k) ∧ 512 ≤ bs ∧ bs ≤ 4096) →
        pdb_get_elt_at_index f i = .error .malformed) ∧
    (checkBadBlockSize 0 = true ∧ checkBadBlockSize 256 = true ∧
      checkBadBlockSize 768 = true ∧ checkBadBlockSize 1000 = true ∧
      checkBadBlockSize 8192 = true) ∧
    (∀ bs, (∃ k, bs = 2 ^ k) → 512 ≤ bs → bs ≤ 4096 →
      checkBadBlockSize bs = false) := by
  refine ⟨?_, by decide, ?_⟩
  · intro f i bs hread hbad
    have hlt : bs < 4294967296 := by
      have hg := getl32_lt f.data 32
      unfold bread4 at hread
      by_cases hc : 32 + 4 ≤ f.size
      · rw [if_pos hc] at hread
        injection hread with h
        omega
      · rw [if_neg hc] at hread
        exact absurd hread (by simp)
    have hcheck : checkBadBlockSize bs = true := by
      cases hcb : checkBadBlockSize bs
      · exact absurd ((checkBadBlockSize_false_iff bs hlt).mp hcb) hbad
      · rfl
    unfold pdb_get_elt_at_index
    rw [hread]
    simp [hcheck]
  · intro bs hpow hge hle
    exact (checkBadBlockSize_false_iff bs (by omega)).mpr ⟨hpow, hge, hle⟩

/-- Witness for C3: a handcrafted header with `block_size = 600` makes
indexed access fail with `malformed`. -/
theorem claim_C3_witness :
    bread4 (msfFromList (pdbMagic ++ putl32 600)) 32 = some 600 ∧
      pdb_get_elt_at_index (msfFromList (pdbMagic ++ putl32 600)) 0 =
        .error .malformed := by
  have h600 : ¬((∃ k, (600 : Nat) = 2 ^ k) ∧ 512 ≤ 600 ∧ 600 ≤ 4096) := by
    rintro ⟨⟨k, hk⟩, -, -⟩
    have hk10 : k < 10 := by
      by_contra hc
      have hb : 2 ^ 10 ≤ 2 ^ k := Nat.pow_le_pow_right (by omega) (by omega)
      norm_num at hb
      omega
    interval_cases k <;> omega
  exact ⟨by decide, claim_C3_block_size_validation.1 _ 0 600 (by decide) h600⟩

/-- Reading a byte covered by a `bwrite`. -/
theorem bwrite_data_hit (f : MsfFile) (p : Nat) (bs : List Nat) (a : Nat)
    (h1 : p ≤ a) (h2 : a < p + bs.length) :
    (bwrite f p bs).data a = bs.getD (a - p) 0 % 256 := by
  unfold bwrite writeBytes
  exact if_pos ⟨h1, h2⟩

/-- Reading a byte outside a `bwrite`. -/
theorem bwrite_data_miss (f : MsfFile) (p : Nat) (bs : List Nat) (a : Nat)
    (h : a < p ∨ p + bs.length ≤ a) :
    (bwrite f p bs).data a = f.data a := by
  unfold bwrite writeBytes
  exact if_neg (by omega)

/-- Looking up a mapped range list. -/
theorem range_map_getD (g : Nat → Nat) (n p : Nat) (h : p < n) :
    ((List.range n).map g).getD p 0 = g p := by
  rw [List.getD_eq_getElem _ _ (by simpa using h), List.getElem_map, List.getElem_range]

/-- Every byte the free-map construction produces is a byte. -/
theorem bitmapByte_lt (nb p : Nat) : bitmapByte nb p < 256 := by
  unfold bitmapByte
  split_ifs with h1 h2
  · omega
  · omega
  · have hs : 8 - nb % 8 ≤ 8 := by omega
    have : (1 <<< (8 - nb % 8)) = 2 ^ (8 - nb % 8) := by
      rw [Nat.shiftLeft_eq, one_mul]
    rw [this]
    have : 2 ^ (8 - nb % 8) ≤ 2 ^ 8 := Nat.pow_le_pow_right (by omega) hs
    omega

/-- The scratch-buffer construction of `pdb_write_bitmap` produces the
piecewise byte `bitmapByte`, independently of the buffer's prior
contents. -/
theorem pdb_bitmap_buf_spec (nb : Nat) (buf : Nat → Nat) (p : Nat) (hp : p < 1024) :
    pdb_bitmap_buf 1024 nb buf p = bitmapByte nb p := by
  unfold pdb_bitmap_buf bitmapByte
  by_cases hbig : nb < 1024 * 8
  · simp only [hbig, if_true, ite_apply]
    by_cases hmod : nb % 8 = 0
    · have hb : (nb % 8 != 0) = false := by simp [hmod]
      simp only [hb, Bool.false_eq_true, if_neg, ite_false]
      by_cases hoff : nb / 8 < 1024
      · simp only [hoff, if_true]
        by_cases hle : nb / 8 ≤ p
        · rw [if_pos ⟨hle, hp⟩, if_neg (by omega), if_pos (by omega)]
        · rw [if_neg (by omega)]
          push_neg at hle
          have h8 : 8 ≤ nb := by omega
          simp only [h8, if_true, min_def, hoff.le]
          rw [if_pos (by omega), if_pos (by omega)]
      · omega
    · have hb : (nb % 8 != 0) = true := by simp [hmod]
      simp only [hb, if_true, ite_apply]
      by_cases hoff : nb / 8 + 1 < 1024
      · simp only [hoff, if_true]
        by_cases hle : nb / 8 + 1 ≤ p
        · rw [if_pos ⟨hle, hp⟩, if_neg (by omega), if_pos (by omega)]
        · rw [if_neg (by omega)]
          by_cases heq : p = nb / 8
          · rw [if_pos heq, if_neg (by omega), if_neg (by omega)]
          · rw [if_neg heq]
            have hplt : p < nb / 8 := by omega
            by_cases h8 : 8 ≤ nb
            · simp only [h8, if_true]
              rw [if_pos (by omega), if_pos (by omega)]
            · omega
      · have hoff2 : nb / 8 = 1023 := by omega
        by_cases heq : p = nb / 8
        · rw [if_neg (by omega), if_pos heq, if_neg (by omega), if_neg (by omega)]
        · rw [if_neg (by omega), if_neg heq]
          have h8 : 8 ≤ nb := by omega
          simp only [h8, if_true]
          rw [if_pos (by omega), if_pos (by omega)]
  · simp only [hbig, if_neg, ite_false, ite_apply]
    have h8 : 8 ≤ nb := by omega
    simp only [h8, if_true]
    rw [if_pos (by rw [min_def]; split <;> omega), if_pos (by omega)]

/-- The bitmap loop leaves bytes below its first interval block alone. -/
theorem bitmap_loop_frame : ∀ (k i nb : Nat) (buf : Nat → Nat) (f : MsfFile) (a : Nat),
    i + k ≤ 4096 → a < (i * 1024 + 1) * 1024 →
    (pdb_write_bitmap_loop 1024 k i nb buf f).data a = f.data a := by
  intro k
  induction k with
  | zero => intro i nb buf f a h1 h2; rfl
  | succ n ih =>
    intro i nb buf f a h1 h2
    show (pdb_write_bitmap_loop 1024 n (i + 1) _ _ _).data a = f.data a
    rw [ih (i + 1) _ _ _ a (by omega) (by nlinarith)]
    apply bwrite_data_miss
    left
    have hm : m32 ((i * 1024 + 1) * 1024) = (i * 1024 + 1) * 1024 := by
      unfold m32
      apply Nat.mod_eq_of_lt
      nlinarith
    rw [hm]
    exact h2


/-- Unfolding equation for one bitmap-loop iteration. -/
theorem bitmap_loop_step (n i nb : Nat) (buf : Nat → Nat) (f : MsfFile) :
    pdb_write_bitmap_loop 1024 (n + 1) i nb buf f =
      pdb_write_bitmap_loop 1024 n (i + 1)
        (if nb < 1024 * 8 then 0 else nb - 1024 * 8)
        (pdb_bitmap_buf 1024 nb buf)
        (bwrite f (m32 ((i * 1024 + 1) * 1024))
          ((List.range 1024).map (pdb_bitmap_buf 1024 nb buf))) := rfl

/-- Interval `i + t` of the bitmap loop holds the `bitmapByte` pattern
for `nb - 8192 * t` remaining used bits. -/
theorem bitmap_loop_spec : ∀ (k i nb : Nat) (buf : Nat → Nat) (f : MsfFile) (t p : Nat),
    i + k ≤ 4096 → t < k → p < 1024 →
    (pdb_write_bitmap_loop 1024 k i nb buf f).data (((i + t) * 1024 + 1) * 1024 + p)
      = bitmapByte (nb - 8192 * t) p := by
  intro k
  induction k with
  | zero => intro i nb buf f t p h1 h2 h3; omega
  | succ n ih =>
    intro i nb buf f t p h1 h2 h3
    rw [bitmap_loop_step]
    cases t with
    | zero =>
      have haddr : m32 ((i * 1024 + 1) * 1024) = (i * 1024 + 1) * 1024 := by
        unfold m32
        apply Nat.mod_eq_of_lt
        nlinarith
      rw [bitmap_loop_frame n (i + 1) _ _ _ _ (by omega) (by simp; nlinarith)]
      rw [haddr]
      rw [bwrite_data_hit _ _ _ _ (by omega) (by simp; omega)]
      simp only [Nat.add_zero, Nat.add_sub_cancel_left, Nat.mul_zero, Nat.sub_zero]
      rw [range_map_getD _ _ _ h3, pdb_bitmap_buf_spec _ _ _ h3]
      exact Nat.mod_eq_of_lt (bitmapByte_lt _ _)
    | succ t1 =>
      have hstep : i + (t1 + 1) = (i + 1) + t1 := by omega
      rw [hstep]
      have hres := ih (i + 1) (if nb < 1024 * 8 then 0 else nb - 1024 * 8)
        (pdb_bitmap_buf 1024 nb buf)
        (bwrite f (m32 ((i * 1024 + 1) * 1024))
          ((List.range 1024).map (pdb_bitmap_buf 1024 nb buf)))
        t1 p (by omega) (by omega) h3
      have heq : (if nb < 1024 * 8 then 0 else nb - 1024 * 8) - 8192 * t1 =
          nb - 8192 * (t1 + 1) := by split <;> omega
      rw [heq] at hres
      exact hres

/-- Claim C9: in the free-block map that `pdb_write_bitmap` emits
(`block_size = 1024`), reading bit `j` of interval `i` (most-significant
bit first within each byte) gives 0 (used) exactly for the first
`num_blocks - 1` bits overall — the superblock is excluded from the
count — and 1 (free) for every later bit of each written free-map block;
the per-interval remaining count drops by `8 * block_size` per interval,
clamped at zero. -/
theorem claim_C9_bitmap_bits (f : MsfFile) (num_blocks : Nat)
    (h1 : 1 ≤ num_blocks) (h2 : num_blocks ≤ 4194304) :
    ∀ i j, i < (num_blocks + 1023) / 1024 → j < 8192 →
      Nat.testBit ((pdb_write_bitmap f 1024 num_blocks).data
          ((i * 1024 + 1) * 1024 + j / 8)) (7 - j % 8) =
        decide (num_blocks - 1 ≤ i * 8192 + j) := by
  intro i j hi hj
  unfold pdb_write_bitmap
  have hm1 : m32 (num_blocks + 1024 - 1) = num_blocks + 1024 - 1 := by
    unfold m32
    omega
  have hm2 : m32 (num_blocks + 4294967295) = num_blocks - 1 := by
    unfold m32
    omega
  rw [hm1, hm2]
  have hloop := bitmap_loop_spec ((num_blocks + 1024 - 1) / 1024) 0 (num_blocks - 1)
      (fun _ => 0) f i (j / 8) (by omega) (by omega) (by omega)
  simp only [Nat.zero_add] at hloop
  rw [hloop]
  unfold bitmapByte
  split_ifs with hb1 hb2
  · rw [Nat.zero_testBit, eq_comm, decide_eq_false_iff_not]
    omega
  · rw [show (255 : Nat) = 2 ^ 8 - 1 from rfl, Nat.testBit_two_pow_sub_one]
    rw [decide_eq_decide]
    omega
  · rw [Nat.shiftLeft_eq, one_mul, Nat.testBit_two_pow_sub_one]
    rw [decide_eq_decide]
    omega

/-- Witness for C9 with `num_blocks = 5`: bit 3 of interval 0 is used,
bit 100 is free. -/
theorem claim_C9_witness :
    ((1 ≤ 5 ∧ (5 : Nat) ≤ 4194304) ∧
      Nat.testBit ((pdb_write_bitmap (msfFromList []) 1024 5).data
          ((0 * 1024 + 1) * 1024 + 3 / 8)) (7 - 3 % 8) =
        decide ((5 : Nat) - 1 ≤ 0 * 8192 + 3)) ∧
    Nat.testBit ((pdb_write_bitmap (msfFromList []) 1024 5).data
        ((0 * 1024 + 1) * 1024 + 100 / 8)) (7 - 100 % 8) =
      decide ((5 : Nat) - 1 ≤ 0 * 8192 + 100) :=
  ⟨⟨⟨by decide, by decide⟩,
    claim_C9_bitmap_bits _ 5 (by decide) (by decide) 0 3 (by decide) (by decide)⟩,
   claim_C9_bitmap_bits _ 5 (by decide) (by decide) 0 100 (by decide) (by decide)⟩

/-- Behaviour of `pdb_allocate_block` away from `uint32_t` wrap-around. -/
theorem alloc_spec (c : Nat) (h : c + 3 < 4294967296) :
    pdb_allocate_block c 1024 =
      if c % 1024 = 1 then (c + 2, c + 3) else (c, c + 1) := by
  unfold pdb_allocate_block m32
  by_cases hc : c % 1024 = 1
  · rw [if_pos (by simp [hc] : ((c % 1024 == 1) = true)), if_pos hc]
    have e1 : (c + 1) % 4294967296 = c + 1 := Nat.mod_eq_of_lt (by omega)
    rw [e1, Nat.mod_eq_of_lt (by omega), Nat.mod_eq_of_lt (by omega)]
  · rw [if_neg (by simp [hc] : ¬((c % 1024 == 1) = true)), if_neg hc]
    rw [Nat.mod_eq_of_lt (by omega)]

/-- Invariants of the prologue allocation step. -/
theorem simProl_spec (w c : Nat) (ds1 : List Nat) (c1 : Nat)
    (h : simProl w c = some (ds1, c1)) (h3 : 3 ≤ c) (hmod : c % 1024 ≠ 2)
    (hb : c + 3 < 4294967296) :
    GoodBlocks c c1 ds1 ∧ c ≤ c1 ∧ c1 ≤ c + 3 ∧ c1 % 1024 ≠ 2 ∧ 3 ≤ c1 ∧
      ds1.length ≤ 1 := by
  unfold simProl at h
  by_cases hw : (w % 256 == 0) = true
  · rw [if_pos hw] at h
    by_cases hg : (w / 256 == 256) = true
    · rw [if_pos hg] at h
      exact absurd h (by simp)
    · rw [if_neg hg] at h
      simp only [Option.some.injEq, Prod.mk.injEq] at h
      obtain ⟨rfl, rfl⟩ := h
      have hstr := allocBlock_stride c hmod
      have hcnt := allocCounter_inv c
      rw [alloc_spec c hb] at hstr hcnt ⊢
      constructor
      · constructor
        · simp
        · intro x hx
          simp at hx
          split at hx <;> split at hstr <;> simp_all <;> omega
      · split <;> split at hcnt <;> simp_all <;> omega
  · rw [if_neg hw] at h
    simp only [Option.some.injEq, Prod.mk.injEq] at h
    obtain ⟨rfl, rfl⟩ := h
    refine ⟨⟨by simp, by simp⟩, by omega, by omega, hmod, h3, by simp⟩

/-- Combined facts about one allocation. -/
theorem alloc_facts (c1 : Nat) (h3 : 3 ≤ c1) (hmod : c1 % 1024 ≠ 2)
    (hb : c1 + 3 < 4294967296) :
    c1 ≤ (pdb_allocate_block c1 1024).1 ∧
      (pdb_allocate_block c1 1024).1 < (pdb_allocate_block c1 1024).2 ∧
      (pdb_allocate_block c1 1024).2 ≤ c1 + 3 ∧
      (pdb_allocate_block c1 1024).1 % 1024 ≠ 1 ∧
      (pdb_allocate_block c1 1024).1 % 1024 ≠ 2 ∧
      (pdb_allocate_block c1 1024).2 % 1024 ≠ 2 ∧
      3 ≤ (pdb_allocate_block c1 1024).2 := by
  have hstr := allocBlock_stride c1 hmod
  have hcnt := allocCounter_inv c1
  rw [alloc_spec c1 hb] at hstr hcnt ⊢
  split at hstr <;> simp_all <;> omega

/-- Invariants of the per-member block-allocation simulation. -/
theorem simStream_inv : ∀ (k w c : Nat) (ds bls : List Nat) (w2 c2 : Nat),
    simStream k w c = some (ds, bls, w2, c2) →
    3 ≤ c → c % 1024 ≠ 2 → c + 6 * k + 6 ≤ 4194304 →
    w2 = w + k ∧ c ≤ c2 ∧ c2 ≤ c + 6 * k ∧ c2 % 1024 ≠ 2 ∧ 3 ≤ c2 ∧
      GoodBlocks c c2 ds ∧ GoodBlocks c c2 bls ∧
      (∀ x ∈ ds, ∀ y ∈ bls, x ≠ y) ∧ bls.length = k := by
  intro k
  induction k with
  | zero =>
    intro w c ds bls w2 c2 h h3 hmod hbound
    unfold simStream at h
    simp only [Option.some.injEq, Prod.mk.injEq] at h
    obtain ⟨rfl, rfl, rfl, rfl⟩ := h
    refine ⟨rfl, le_refl c, by omega, hmod, h3, ⟨by simp, by simp⟩, ⟨by simp, by simp⟩,
      by simp, rfl⟩
  | succ n ih =>
    intro w c ds bls w2 c2 h h3 hmod hbound
    unfold simStream at h
    rcases hpr : simProl w c with _ | ⟨ds1, c1⟩ <;> rw [hpr] at h <;> dsimp only at h
    · exact absurd h (by simp)
    rcases hrec : simStream n (w + 1) (pdb_allocate_block c1 1024).2 with
      _ | ⟨ds2, bls2, w3, c3⟩ <;> rw [hrec] at h <;> dsimp only at h
    · exact absurd h (by simp)
    simp only [Option.some.injEq, Prod.mk.injEq] at h
    obtain ⟨rfl, rfl, rfl, rfl⟩ := h
    obtain ⟨hgd1, hc1, hc1b, hc1mod, hc13, hlen1⟩ :=
      simProl_spec w c ds1 c1 hpr h3 hmod (by omega)
    have hp1 := alloc_facts c1 hc13 hc1mod (by omega)
    obtain ⟨hrw, hrc, hrcb, hrcmod, hrc3, hgds2, hgbls2, hcross2, hlen2⟩ :=
      ih (w + 1) (pdb_allocate_block c1 1024).2 ds2 bls2 w3 c3 hrec
        (by omega) hp1.2.2.2.2.2.1 (by omega)
    refine ⟨by omega, by omega, by omega, hrcmod, hrc3, ?_, ?_, ?_, by simp [hlen2]⟩
    · constructor
      · rw [List.pairwise_append]
        refine ⟨hgd1.1, hgds2.1, ?_⟩
        intro x hx y hy
        have hxr := hgd1.2 x hx
        have hyr := hgds2.2 y hy
        omega
      · intro x hx
        rcases List.mem_append.mp hx with hx1 | hx2
        · have := hgd1.2 x hx1
          omega
        · have := hgds2.2 x hx2
          omega
    · constructor
      · rw [List.pairwise_cons]
        refine ⟨?_, hgbls2.1⟩
        intro y hy
        have := hgbls2.2 y hy
        omega
      · intro x hx
        rcases List.mem_cons.mp hx with rfl | hx2
        · omega
        · have := hgbls2.2 x hx2
          omega
    · intro x hx y hy
      rcases List.mem_append.mp hx with hx1 | hx2
      · have hxr := hgd1.2 x hx1
        rcases List.mem_cons.mp hy with rfl | hy2
        · omega
        · have := hgbls2.2 y hy2
          omega
      · have hxr := hgds2.2 x hx2
        rcases List.mem_cons.mp hy with rfl | hy2
        · omega
        · exact hcross2 x hx2 y hy2

/-- Invariants of the sizes-loop allocation simulation. -/
theorem simSizes_inv : ∀ (n w c : Nat) (ds : List Nat) (w2 c2 : Nat),
    simSizes n w c = some (ds, w2, c2) →
    3 ≤ c → c % 1024 ≠ 2 → c + 6 * n + 6 ≤ 4194304 →
    w2 = w + n ∧ c ≤ c2 ∧ c2 ≤ c + 6 * n ∧ c2 % 1024 ≠ 2 ∧ 3 ≤ c2 ∧
      GoodBlocks c c2 ds := by
  intro n
  induction n with
  | zero =>
    intro w c ds w2 c2 h h3 hmod hbound
    unfold simSizes at h
    simp only [Option.some.injEq, Prod.mk.injEq] at h
    obtain ⟨rfl, rfl, rfl⟩ := h
    exact ⟨rfl, le_refl c, by omega, hmod, h3, ⟨by simp, by simp⟩⟩
  | succ n ih =>
    intro w c ds w2 c2 h h3 hmod hbound
    unfold simSizes at h
    rcases hpr : simProl w c with _ | ⟨ds1, c1⟩ <;> rw [hpr] at h <;> dsimp only at h
    · exact absurd h (by simp)
    rcases hrec : simSizes n (w + 1) c1 with _ | ⟨ds2, w3, c3⟩ <;>
      rw [hrec] at h <;> dsimp only at h
    · exact absurd h (by simp)
    simp only [Option.some.injEq, Prod.mk.injEq] at h
    obtain ⟨rfl, rfl, rfl⟩ := h
    obtain ⟨hgd1, hc1, hc1b, hc1mod, hc13, hlen1⟩ :=
      simProl_spec w c ds1 c1 hpr h3 hmod (by omega)
    obtain ⟨hrw, hrc, hrcb, hrcmod, hrc3, hgds2⟩ :=
      ih (w + 1) c1 ds2 w3 c3 hrec hc13 hc1mod (by omega)
    refine ⟨by omega, by omega, by omega, hrcmod, hrc3, ?_⟩
    constructor
    · rw [List.pairwise_append]
      refine ⟨hgd1.1, hgds2.1, ?_⟩
      intro x hx y hy
      have hxr := hgd1.2 x hx
      have hyr := hgds2.2 y hy
      omega
    · intro x hx
      rcases List.mem_append.mp hx with hx1 | hx2
      · have := hgd1.2 x hx1
        omega
      · have := hgds2.2 x hx2
        omega

/-- Invariants of the blocks-loop allocation simulation over all
members. -/
theorem simStreams_inv : ∀ (sizes : List Nat) (w c : Nat) (dss : List Nat)
    (blss : List (List Nat)) (w2 c2 : Nat),
    simStreams sizes w c = some (dss, blss, w2, c2) →
    3 ≤ c → c % 1024 ≠ 2 →
    c + 6 * (sizes.map (fun s => m32 ((s + 1023) / 1024))).sum + 6 ≤ 4194304 →
    w2 = w + (sizes.map (fun s => m32 ((s + 1023) / 1024))).sum ∧ c ≤ c2 ∧
      c2 ≤ c + 6 * (sizes.map (fun s => m32 ((s + 1023) / 1024))).sum ∧
      c2 % 1024 ≠ 2 ∧ 3 ≤ c2 ∧ GoodBlocks c c2 dss ∧
      GoodBlocks c c2 blss.flatten ∧
      (∀ x ∈ dss, ∀ y ∈ blss.flatten, x ≠ y) ∧
      blss.map List.length = sizes.map (fun s => m32 ((s + 1023) / 1024)) := by
  intro sizes
  induction sizes with
  | nil =>
    intro w c dss blss w2 c2 h h3 hmod hbound
    unfold simStreams at h
    simp only [Option.some.injEq, Prod.mk.injEq] at h
    obtain ⟨rfl, rfl, rfl, rfl⟩ := h
    refine ⟨by simp, le_refl c, by simp, hmod, h3, ⟨by simp, by simp⟩,
      ⟨by simp, by simp⟩, by simp, by simp⟩
  | cons s rest ih =>
    intro w c dss blss w2 c2 h h3 hmod hbound
    unfold simStreams at h
    rcases hst : simStream (m32 ((s + 1023) / 1024)) w c with
      _ | ⟨ds1, bl1, w1, c1⟩ <;> rw [hst] at h <;> dsimp only at h
    · exact absurd h (by simp)
    rcases hrest : simStreams rest w1 c1 with _ | ⟨ds2, bls2, w3, c3⟩ <;>
      rw [hrest] at h <;> dsimp only at h
    · exact absurd h (by simp)
    simp only [Option.some.injEq, Prod.mk.injEq] at h
    obtain ⟨rfl, rfl, rfl, rfl⟩ := h
    obtain ⟨hw1, hc1, hc1b, hc1mod, hc13, hgds1, hgbl1, hcross1, hlen1⟩ :=
      simStream_inv (m32 ((s + 1023) / 1024)) w c ds1 bl1 w1 c1 hst h3 hmod
        (by simp only [List.map_cons, List.sum_cons] at hbound; omega)
    obtain ⟨hw3, hc3, hc3b, hc3mod, hc33, hgds2, hgbls2, hcross2, hlens2⟩ :=
      ih w1 c1 ds2 bls2 w3 c3 hrest hc13 hc1mod
        (by simp only [List.map_cons, List.sum_cons] at hbound; omega)
    simp only [List.map_cons, List.sum_cons] at hbound ⊢
    refine ⟨by omega, by omega, by omega, hc3mod, hc33, ?_, ?_, ?_, ?_⟩
    · constructor
      · rw [List.pairwise_append]
        refine ⟨hgds1.1, hgds2.1, ?_⟩
        intro x hx y hy
        have hxr := hgds1.2 x hx
        have hyr := hgds2.2 y hy
        omega
      · intro x hx
        rcases List.mem_append.mp hx with hx1 | hx2
        · have := hgds1.2 x hx1
          omega
        · have := hgds2.2 x hx2
          omega
    · constructor
      · rw [List.flatten_cons, List.pairwise_append]
        refine ⟨hgbl1.1, hgbls2.1, ?_⟩
        intro x hx y hy
        have hxr := hgbl1.2 x hx
        have hyr := hgbls2.2 y hy
        omega
      · intro x hx
        rw [List.flatten_cons] at hx
        rcases List.mem_append.mp hx with hx1 | hx2
        · have := hgbl1.2 x hx1
          omega
        · have := hgbls2.2 x hx2
          omega
    · intro x hx y hy
      rw [List.flatten_cons] at hy
      rcases List.mem_append.mp hx with hx1 | hx2
      · have hxr := hgds1.2 x hx1
        rcases List.mem_append.mp hy with hy1 | hy2
        · exact hcross1 x hx1 y hy1
        · have := hgbls2.2 y hy2
          omega
      · have hxr := hgds2.2 x hx2
        rcases List.mem_append.mp hy with hy1 | hy2
        · have := hgbl1.2 y hy1
          omega
        · exact hcross2 x hx2 y hy2
    · rw [hlen1, hlens2]

/-- The word counter advances by exactly the block count. -/
theorem simStream_w : ∀ (k w c : Nat) (ds bls : List Nat) (w2 c2 : Nat),
    simStream k w c = some (ds, bls, w2, c2) → w2 = w + k := by
  intro k
  induction k with
  | zero =>
    intro w c ds bls w2 c2 h
    unfold simStream at h
    simp only [Option.some.injEq, Prod.mk.injEq] at h
    omega
  | succ n ih =>
    intro w c ds bls w2 c2 h
    unfold simStream at h
    rcases hpr : simProl w c with _ | ⟨ds1, c1⟩ <;> rw [hpr] at h <;> dsimp only at h
    · exact absurd h (by simp)
    rcases hrec : simStream n (w + 1) (pdb_allocate_block c1 1024).2 with
      _ | ⟨ds2, bls2, w3, c3⟩ <;> rw [hrec] at h <;> dsimp only at h
    · exact absurd h (by simp)
    simp only [Option.some.injEq, Prod.mk.injEq] at h
    have := ih (w + 1) (pdb_allocate_block c1 1024).2 ds2 bls2 w3 c3 hrec
    omega

/-- The prologue never fails before word 65536. -/
theorem simProl_total (w c : Nat) (h : w < 65536) :
    ∃ out, simProl w c = some out := by
  unfold simProl
  by_cases hw : (w % 256 == 0) = true
  · rw [if_pos hw]
    have hg : ¬((w / 256 == 256) = true) := by
      simp only [beq_iff_eq]
      omega
    rw [if_neg hg]
    exact ⟨_, rfl⟩
  · rw [if_neg hw]
    exact ⟨_, rfl⟩

/-- The member simulation succeeds while the directory fits the block
map page. -/
theorem simStream_total : ∀ (k w c : Nat), w + k ≤ 65536 →
    ∃ out, simStream k w c = some out := by
  intro k
  induction k with
  | zero => intro w c h; exact ⟨_, rfl⟩
  | succ n ih =>
    intro w c h
    obtain ⟨⟨ds1, c1⟩, hpr⟩ := simProl_total w c (by omega)
    obtain ⟨⟨ds2, bls2, w3, c3⟩, hrec⟩ :=
      ih (w + 1) (pdb_allocate_block c1 1024).2 (by omega)
    refine ⟨(ds1 ++ ds2, (pdb_allocate_block c1 1024).1 :: bls2, w3, c3), ?_⟩
    unfold simStream
    rw [hpr]
    dsimp only
    rw [hrec]

/-- The sizes-loop simulation succeeds while the directory fits. -/
theorem simSizes_total : ∀ (n w c : Nat), w + n ≤ 65536 →
    ∃ out, simSizes n w c = some out := by
  intro n
  induction n with
  | zero => intro w c h; exact ⟨_, rfl⟩
  | succ k ih =>
    intro w c h
    obtain ⟨⟨ds1, c1⟩, hpr⟩ := simProl_total w c (by omega)
    obtain ⟨⟨ds2, w3, c3⟩, hrec⟩ := ih (w + 1) c1 (by omega)
    refine ⟨(ds1 ++ ds2, w3, c3), ?_⟩
    unfold simSizes
    rw [hpr]
    dsimp only
    rw [hrec]

/-- The blocks-loop simulation succeeds while the directory fits. -/
theorem simStreams_total : ∀ (sizes : List Nat) (w c : Nat),
    w + (sizes.map (fun s => m32 ((s + 1023) / 1024))).sum ≤ 65536 →
    ∃ out, simStreams sizes w c = some out := by
  intro sizes
  induction sizes with
  | nil => intro w c h; exact ⟨_, rfl⟩
  | cons s rest ih =>
    intro w c h
    simp only [List.map_cons, List.sum_cons] at h
    obtain ⟨⟨ds1, bl1, w1, c1⟩, hst⟩ :=
      simStream_total (m32 ((s + 1023) / 1024)) w c (by omega)
    have hw1 := simStream_w _ _ _ _ _ _ _ hst
    obtain ⟨⟨ds2, bls2, w3, c3⟩, hrest⟩ := ih w1 c1 (by omega)
    refine ⟨(ds1 ++ ds2, bl1 :: bls2, w3, c3), ?_⟩
    unfold simStreams
    rw [hst]
    dsimp only
    rw [hrest]
